import Mathlib

/-!
Verification of the Black-Scholes-Merton analytics library
(`black_scholes_model.py`) of the Option-Analytics-Dashboard repository.

The numeric functions of the library are embedded over the real numbers.
The helper `_calculate_d1_d2` can return `np.inf` / `-np.inf`, so its result
is modelled by `XReal`, the reals extended with the two infinities, together
with the standard-normal CDF/PDF extended to them the way `scipy.stats.norm`
behaves (`cdf(inf) = 1`, `cdf(-inf) = 0`, `pdf(±inf) = 0`).  Functions that
can raise `ValueError` in Python return `Except String ℝ`; the functions
`delta`, `theta`, `rho` contain no `raise` statement, so every branch of
their embedding returns `Except.ok`.
-/

open MeasureTheory Set Filter Topology

namespace BSM

/-- Real values extended with the two floating-point infinities, the possible
results of `_calculate_d1_d2`. -/
inductive XReal where
  | neg_inf : XReal
  | fin : ℝ → XReal
  | pos_inf : XReal

/-- Negation on `XReal`, used to model `-d1` / `-d2` in the Python source. -/
def XReal.neg : XReal → XReal
  | .neg_inf => .pos_inf
  | .fin x => .fin (-x)
  | .pos_inf => .neg_inf

/-- Standard normal probability density function (`scipy.stats.norm.pdf`). -/
noncomputable def normPdf (x : ℝ) : ℝ :=
  Real.exp (-(x ^ 2) / 2) / Real.sqrt (2 * Real.pi)

/-- Standard normal cumulative distribution function
(`scipy.stats.norm.cdf`). -/
noncomputable def normCdf (x : ℝ) : ℝ := ∫ t in Iic x, normPdf t

/-- `scipy.stats.norm.pdf` extended to `±np.inf`: the pdf vanishes there. -/
noncomputable def normPdfX : XReal → ℝ
  | .neg_inf => 0
  | .fin x => normPdf x
  | .pos_inf => 0

/-- `scipy.stats.norm.cdf` extended to `±np.inf`:
`cdf(-inf) = 0`, `cdf(inf) = 1`. -/
noncomputable def normCdfX : XReal → ℝ
  | .neg_inf => 0
  | .fin x => normCdf x
  | .pos_inf => 1

/-- Embedding of `_calculate_d1_d2` (src/black_scholes_model.py, lines
13-24).  When `T ≤ 0` or `sigma ≤ 0` the Python helper returns
`(np.inf, np.inf)` for `S > K` and `(-np.inf, -np.inf)` otherwise. -/
noncomputable def _calculate_d1_d2 (S K T r sigma : ℝ) : XReal × XReal :=
  if T ≤ 0 ∨ sigma ≤ 0 then
    if K < S then (.pos_inf, .pos_inf) else (.neg_inf, .neg_inf)
  else
    let d1 := (Real.log (S / K) + (r + 0.5 * sigma ^ 2) * T) / (sigma * Real.sqrt T)
    (.fin d1, .fin (d1 - sigma * Real.sqrt T))

/-- Embedding of `black_scholes_price` (src/black_scholes_model.py, lines
26-46).  `raise ValueError` is modelled by `Except.error`. -/
noncomputable def black_scholes_price (S K T r sigma : ℝ) (option_type : String) :
    Except String ℝ :=
  if T ≤ 0 then
    if option_type = "call" then .ok (max 0 (S - K))
    else .ok (max 0 (K - S))
  else
    let d := _calculate_d1_d2 S K T r sigma
    if option_type = "call" then
      .ok (S * normCdfX d.1 - K * Real.exp (-r * T) * normCdfX d.2)
    else if option_type = "put" then
      .ok (K * Real.exp (-r * T) * normCdfX d.2.neg - S * normCdfX d.1.neg)
    else
      .error "Invalid option type. Must be 'call' or 'put'."

/-- Embedding of `delta` (src/black_scholes_model.py, lines 48-61).  The
Python function contains no `raise`: any `option_type` other than `"call"`
falls into the put branch, so every branch returns `Except.ok`. -/
noncomputable def delta (S K T r sigma : ℝ) (option_type : String) :
    Except String ℝ :=
  if T ≤ 0 then
    if option_type = "call" then .ok (if K < S then 1 else 0)
    else .ok (if S < K then -1 else 0)
  else
    let d1 := (_calculate_d1_d2 S K T r sigma).1
    if option_type = "call" then .ok (normCdfX d1)
    else .ok (normCdfX d1 - 1)

/-- Embedding of `gamma` (src/black_scholes_model.py, lines 63-69). -/
noncomputable def gamma (S K T r sigma : ℝ) : ℝ :=
  if T ≤ 0 ∨ sigma ≤ 0 then 0
  else normPdfX (_calculate_d1_d2 S K T r sigma).1 / (S * sigma * Real.sqrt T)

/-- Embedding of `vega` (src/black_scholes_model.py, lines 71-77). -/
noncomputable def vega (S K T r sigma : ℝ) : ℝ :=
  if T ≤ 0 ∨ sigma ≤ 0 then 0
  else S * normPdfX (_calculate_d1_d2 S K T r sigma).1 * Real.sqrt T

/-- Embedding of `theta` (src/black_scholes_model.py, lines 79-93).  No
`raise` statement: any non-`"call"` type uses the put branch. -/
noncomputable def theta (S K T r sigma : ℝ) (option_type : String) :
    Except String ℝ :=
  if T ≤ 0 then .ok 0
  else
    let d := _calculate_d1_d2 S K T r sigma
    let term1 := -(S * normPdfX d.1 * sigma) / (2 * Real.sqrt T)
    if option_type = "call" then
      .ok ((term1 - r * K * Real.exp (-r * T) * normCdfX d.2) / 365)
    else
      .ok ((term1 + r * K * Real.exp (-r * T) * normCdfX d.2.neg) / 365)

/-- Embedding of `rho` (src/black_scholes_model.py, lines 95-105).  No
`raise` statement: any non-`"call"` type uses the put branch. -/
noncomputable def rho (S K T r sigma : ℝ) (option_type : String) :
    Except String ℝ :=
  if T ≤ 0 then .ok 0
  else
    let d2 := (_calculate_d1_d2 S K T r sigma).2
    if option_type = "call" then
      .ok (K * T * Real.exp (-r * T) * normCdfX d2 / 100)
    else
      .ok (-K * T * Real.exp (-r * T) * normCdfX d2.neg / 100)

/-- The finite `d1` produced by `_calculate_d1_d2` when `T > 0 ∧ sigma > 0`,
written as a function of the spot `S` so the price can be studied as a
function of `S`. -/
noncomputable def d1fn (K T r sigma S : ℝ) : ℝ :=
  (Real.log (S / K) + (r + 0.5 * sigma ^ 2) * T) / (sigma * Real.sqrt T)

/-- The finite `d2 = d1 - sigma * sqrt T` of `_calculate_d1_d2`. -/
noncomputable def d2fn (K T r sigma S : ℝ) : ℝ :=
  d1fn K T r sigma S - sigma * Real.sqrt T

/-- The call price returned by `black_scholes_price` in its general
(`T > 0`, `sigma > 0`) branch, as a function of `S`. -/
noncomputable def callVal (K T r sigma S : ℝ) : ℝ :=
  S * normCdf (d1fn K T r sigma S) -
    K * Real.exp (-r * T) * normCdf (d2fn K T r sigma S)

/-- The put price returned by `black_scholes_price` in its general
(`T > 0`, `sigma > 0`) branch, as a function of `S`. -/
noncomputable def putVal (K T r sigma S : ℝ) : ℝ :=
  K * Real.exp (-r * T) * normCdf (-d2fn K T r sigma S) -
    S * normCdf (-d1fn K T r sigma S)

/-! ### Basic facts about the standard normal pdf -/

lemma normPdf_pos (x : ℝ) : 0 < normPdf x :=
  div_pos (Real.exp_pos _) (Real.sqrt_pos.mpr (by positivity))

lemma normPdf_nonneg (x : ℝ) : 0 ≤ normPdf x := (normPdf_pos x).le

lemma normPdf_neg_arg (x : ℝ) : normPdf (-x) = normPdf x := by
  simp only [normPdf, neg_sq]

lemma normPdfX_nonneg (d : XReal) : 0 ≤ normPdfX d := by
  cases d <;> simp [normPdfX, normPdf_nonneg]

lemma normPdf_eq :
    normPdf = fun x : ℝ =>
      Real.exp (-(1 / 2 : ℝ) * x ^ 2) / Real.sqrt (2 * Real.pi) := by
  funext x
  simp only [normPdf]
  ring_nf

lemma continuous_normPdf : Continuous normPdf :=
  (Real.continuous_exp.comp ((continuous_pow 2).neg.div_const 2)).div_const _

lemma integrable_normPdf : Integrable normPdf := by
  rw [normPdf_eq]
  exact (integrable_exp_neg_mul_sq (by norm_num)).div_const _

lemma integral_normPdf : ∫ x, normPdf x = 1 := by
  rw [normPdf_eq]
  rw [MeasureTheory.integral_div, integral_gaussian,
    show Real.pi / (1 / 2 : ℝ) = 2 * Real.pi by ring]
  exact div_self (ne_of_gt (Real.sqrt_pos.mpr (by positivity)))

/-! ### Basic facts about the standard normal cdf -/

lemma normCdf_nonneg (x : ℝ) : 0 ≤ normCdf x :=
  setIntegral_nonneg measurableSet_Iic fun t _ => normPdf_nonneg t

lemma normCdf_le_one (x : ℝ) : normCdf x ≤ 1 := by
  calc normCdf x ≤ ∫ t, normPdf t :=
        setIntegral_le_integral integrable_normPdf
          (Eventually.of_forall normPdf_nonneg)
    _ = 1 := integral_normPdf

lemma monotone_normCdf : Monotone normCdf := fun x y hxy =>
  setIntegral_mono_set integrable_normPdf.integrableOn
    (Eventually.of_forall normPdf_nonneg)
    (HasSubset.Subset.eventuallyLE (Iic_subset_Iic.mpr hxy))

lemma normCdf_neg (x : ℝ) : normCdf (-x) = 1 - normCdf x := by
  have h1 : (∫ t in Iic (-x), normPdf (-t)) = ∫ t in Ioi (-(-x)), normPdf t :=
    integral_comp_neg_Iic (-x) normPdf
  rw [neg_neg] at h1
  have h2 : (∫ t in Iic (-x), normPdf (-t)) = normCdf (-x) := by
    simp only [normPdf_neg_arg]
    rfl
  have h3 := intervalIntegral.integral_Iic_add_Ioi (b := x) (μ := volume)
    integrable_normPdf.integrableOn integrable_normPdf.integrableOn
  rw [integral_normPdf] at h3
  have h4 : normCdf x = ∫ t in Iic x, normPdf t := rfl
  rw [← h2, h1]
  linarith [h3, h4]

lemma normCdfX_nonneg (d : XReal) : 0 ≤ normCdfX d := by
  cases d <;> simp [normCdfX, normCdf_nonneg]

lemma normCdfX_le_one (d : XReal) : normCdfX d ≤ 1 := by
  cases d <;> simp [normCdfX, normCdf_le_one]

/-! ### Derivatives of the normal pdf and cdf, and the Mills inequality -/

lemma normCdf_sub_normCdf (a x : ℝ) :
    normCdf x - normCdf a = ∫ t in a..x, normPdf t :=
  intervalIntegral.integral_Iic_sub_Iic integrable_normPdf.integrableOn
    integrable_normPdf.integrableOn

lemma hasDerivAt_normCdf (x : ℝ) : HasDerivAt normCdf (normPdf x) x := by
  have key : HasDerivAt (fun u => ∫ t in (0:ℝ)..u, normPdf t) (normPdf x) x :=
    intervalIntegral.integral_hasDerivAt_right
      integrable_normPdf.intervalIntegrable
      (continuous_normPdf.stronglyMeasurableAtFilter _ _)
      continuous_normPdf.continuousAt
  have heq : normCdf = fun u => normCdf 0 + ∫ t in (0:ℝ)..u, normPdf t := by
    funext u
    rw [← normCdf_sub_normCdf 0 u]
    ring
  rw [heq]
  exact key.const_add (normCdf 0)

lemma hasDerivAt_normPdf (x : ℝ) :
    HasDerivAt normPdf (-x * normPdf x) x := by
  have h1 : HasDerivAt (fun y : ℝ => -(y ^ 2) / 2) (-x) x := by
    have h := ((hasDerivAt_pow 2 x).neg).div_const 2
    convert h using 1
    ring
  have h2 := (h1.exp).div_const (Real.sqrt (2 * Real.pi))
  have h3 : -x * normPdf x =
      Real.exp (-(x ^ 2) / 2) * -x / Real.sqrt (2 * Real.pi) := by
    rw [normPdf]
    ring
  rw [h3]
  exact h2

lemma tendsto_normPdf_atBot : Tendsto normPdf atBot (𝓝 0) := by
  have hneg : Tendsto (fun y : ℝ => -y) atBot atTop := tendsto_neg_atBot_atTop
  have hpow : Tendsto (fun z : ℝ => z ^ 2) atTop atTop :=
    tendsto_pow_atTop (by norm_num)
  have hsq : Tendsto (fun y : ℝ => y ^ 2) atBot atTop := by
    refine (hpow.comp hneg).congr fun y => ?_
    show (-y) ^ 2 = y ^ 2
    ring
  have h1 : Tendsto (fun y : ℝ => -(y ^ 2) / 2) atBot atBot := by
    apply Tendsto.atBot_div_const (by norm_num : (0:ℝ) < 2)
    exact tendsto_neg_atTop_atBot.comp hsq
  have h2 : Tendsto (fun y : ℝ => Real.exp (-(y ^ 2) / 2)) atBot (𝓝 0) :=
    Real.tendsto_exp_atBot.comp h1
  have h3 := h2.div_const (Real.sqrt (2 * Real.pi))
  rw [zero_div] at h3
  exact h3

lemma normCdf_le_exp_of_le {x : ℝ} (hx : x ≤ -2) :
    normCdf x ≤ Real.exp x / Real.sqrt (2 * Real.pi) := by
  have key : ∀ t ∈ Iic x, normPdf t ≤ Real.exp t / Real.sqrt (2 * Real.pi) := by
    intro t ht
    have ht' : t ≤ -2 := le_trans ht hx
    rw [normPdf]
    gcongr
    nlinarith
  calc normCdf x = ∫ t in Iic x, normPdf t := rfl
    _ ≤ ∫ t in Iic x, Real.exp t / Real.sqrt (2 * Real.pi) :=
        setIntegral_mono_on integrable_normPdf.integrableOn
          ((integrableOn_exp_Iic x).div_const _) measurableSet_Iic key
    _ = (∫ t in Iic x, Real.exp t) / Real.sqrt (2 * Real.pi) :=
        integral_div _ _
    _ = Real.exp x / Real.sqrt (2 * Real.pi) := by rw [integral_exp_Iic]

lemma tendsto_mul_normCdf_atBot :
    Tendsto (fun x => x * normCdf x) atBot (𝓝 0) := by
  have hexp : Tendsto (fun x : ℝ => x * Real.exp x / Real.sqrt (2 * Real.pi))
      atBot (𝓝 0) := by
    have h1 : Tendsto (fun y : ℝ => y ^ 1 * Real.exp (-y)) atTop (𝓝 0) :=
      Real.tendsto_pow_mul_exp_neg_atTop_nhds_zero 1
    have h2 := ((h1.comp tendsto_neg_atBot_atTop)).neg
    have h3 : Tendsto (fun x : ℝ => x * Real.exp x) atBot (𝓝 0) := by
      rw [neg_zero] at h2
      refine h2.congr fun x => ?_
      show -((-x) ^ 1 * Real.exp (-(-x))) = x * Real.exp x
      rw [neg_neg]
      ring
    have h4 := h3.div_const (Real.sqrt (2 * Real.pi))
    rwa [zero_div] at h4
  apply tendsto_of_tendsto_of_tendsto_of_le_of_le' hexp tendsto_const_nhds
  · filter_upwards [eventually_le_atBot (-2 : ℝ)] with x hx
    have hb := normCdf_le_exp_of_le hx
    have hx0 : x ≤ 0 := le_trans hx (by norm_num)
    calc x * Real.exp x / Real.sqrt (2 * Real.pi)
        = x * (Real.exp x / Real.sqrt (2 * Real.pi)) := by ring
      _ ≤ x * normCdf x := mul_le_mul_of_nonpos_left hb hx0
  · filter_upwards [eventually_le_atBot (0 : ℝ)] with x hx
    exact mul_nonpos_iff.mpr (Or.inr ⟨hx, normCdf_nonneg x⟩)

lemma hasDerivAt_millsAux (x : ℝ) :
    HasDerivAt (fun y => normPdf y + y * normCdf y) (normCdf x) x := by
  have h1 := (hasDerivAt_normPdf x).add
    ((hasDerivAt_id' (x := x)).mul (hasDerivAt_normCdf x))
  have h2 : -x * normPdf x + (1 * normCdf x + x * normPdf x) = normCdf x := by
    ring
  rw [← h2]
  exact h1

lemma millsAux_nonneg (x : ℝ) : 0 ≤ normPdf x + x * normCdf x := by
  have hmono : Monotone fun y => normPdf y + y * normCdf y :=
    monotone_of_hasDerivAt_nonneg hasDerivAt_millsAux fun y => normCdf_nonneg y
  have ht : Tendsto (fun y => normPdf y + y * normCdf y) atBot (𝓝 0) := by
    have h := tendsto_normPdf_atBot.add tendsto_mul_normCdf_atBot
    rwa [add_zero] at h
  exact le_of_tendsto ht (eventually_atBot.mpr ⟨x, fun y hy => hmono hy⟩)

lemma hasDerivAt_millsFrac (x : ℝ) :
    HasDerivAt (fun y => normCdf y / normPdf y)
      ((normPdf x * normPdf x - normCdf x * (-x * normPdf x)) /
        normPdf x ^ 2) x :=
  (hasDerivAt_normCdf x).div (hasDerivAt_normPdf x) (ne_of_gt (normPdf_pos x))

lemma mills_mono : Monotone fun y => normCdf y / normPdf y := by
  apply monotone_of_hasDerivAt_nonneg hasDerivAt_millsFrac
  intro y
  apply div_nonneg _ (sq_nonneg _)
  have h1 := millsAux_nonneg y
  have h2 := normPdf_pos y
  nlinarith [mul_nonneg h1 h2.le]

/-- The Mills-ratio inequality: `normCdf x / normPdf x` is monotone, in
cross-multiplied form. -/
lemma mills_ineq {x y : ℝ} (hxy : x ≤ y) :
    normCdf x * normPdf y ≤ normCdf y * normPdf x := by
  have h := mills_mono hxy
  rwa [div_le_div_iff (normPdf_pos x) (normPdf_pos y)] at h

/-! ### The general (`T > 0`, `sigma > 0`) branch of the price -/

variable {S K T r sigma : ℝ}

lemma calc_d1_d2_eq (hT : 0 < T) (hs : 0 < sigma) :
    _calculate_d1_d2 S K T r sigma =
      (XReal.fin (d1fn K T r sigma S), XReal.fin (d2fn K T r sigma S)) := by
  rw [_calculate_d1_d2, if_neg (by push_neg; exact ⟨hT, hs⟩)]
  rfl

lemma price_call_eq (hT : 0 < T) (hs : 0 < sigma) :
    black_scholes_price S K T r sigma "call" =
      Except.ok (callVal K T r sigma S) := by
  rw [black_scholes_price, if_neg (not_le.mpr hT)]
  simp only [calc_d1_d2_eq hT hs]
  simp [normCdfX, callVal]

lemma price_put_eq (hT : 0 < T) (hs : 0 < sigma) :
    black_scholes_price S K T r sigma "put" =
      Except.ok (putVal K T r sigma S) := by
  rw [black_scholes_price, if_neg (not_le.mpr hT)]
  simp only [calc_d1_d2_eq hT hs]
  simp [normCdfX, XReal.neg, putVal]

/-! ### The key identity `S·φ(d1) = K·e^(-rT)·φ(d2)` -/

lemma key_identity (hS : 0 < S) (hK : 0 < K) (hT : 0 < T) (hs : 0 < sigma) :
    S * normPdf (d1fn K T r sigma S) =
      K * Real.exp (-r * T) * normPdf (d2fn K T r sigma S) := by
  have hq : (0:ℝ) < sigma * Real.sqrt T := by positivity
  have hd1q : d1fn K T r sigma S * (sigma * Real.sqrt T) =
      Real.log (S / K) + (r + 0.5 * sigma ^ 2) * T := by
    rw [d1fn]
    exact div_mul_cancel₀ _ (ne_of_gt hq)
  have hdiff : d1fn K T r sigma S ^ 2 - d2fn K T r sigma S ^ 2 =
      2 * (Real.log (S / K) + r * T) := by
    have hsq : Real.sqrt T ^ 2 = T := Real.sq_sqrt hT.le
    have expand : d1fn K T r sigma S ^ 2 - d2fn K T r sigma S ^ 2 =
        2 * (d1fn K T r sigma S * (sigma * Real.sqrt T)) -
          (sigma * Real.sqrt T) ^ 2 := by
      rw [d2fn]
      ring
    rw [expand, hd1q, mul_pow, hsq]
    ring
  have hexp : Real.exp (-(d2fn K T r sigma S ^ 2) / 2) =
      Real.exp (-(d1fn K T r sigma S ^ 2) / 2) *
        (S / K * Real.exp (r * T)) := by
    rw [← Real.exp_log (show (0:ℝ) < S / K by positivity), ← Real.exp_add,
      ← Real.exp_add]
    congr 1
    linarith [hdiff]
  have her : Real.exp (-r * T) * Real.exp (r * T) = 1 := by
    rw [← Real.exp_add]
    norm_num
  have main : S * Real.exp (-(d1fn K T r sigma S ^ 2) / 2) =
      K * Real.exp (-r * T) * Real.exp (-(d2fn K T r sigma S ^ 2) / 2) := by
    rw [hexp]
    have hK0 : K ≠ 0 := ne_of_gt hK
    calc S * Real.exp (-(d1fn K T r sigma S ^ 2) / 2)
        = S * Real.exp (-(d1fn K T r sigma S ^ 2) / 2) * 1 * 1 := by ring
      _ = S * Real.exp (-(d1fn K T r sigma S ^ 2) / 2) *
            (Real.exp (-r * T) * Real.exp (r * T)) * (K / K) := by
          rw [her, div_self hK0]
      _ = K * Real.exp (-r * T) *
            (Real.exp (-(d1fn K T r sigma S ^ 2) / 2) *
              (S / K * Real.exp (r * T))) := by ring
  rw [normPdf, normPdf, mul_div_assoc', mul_div_assoc', main]

/-! ### Derivative of the call value in the spot -/

lemma hasDerivAt_d1fn (hK : 0 < K) (hT : 0 < T) (hs : 0 < sigma)
    (hS : 0 < S) :
    HasDerivAt (d1fn K T r sigma) (1 / (S * (sigma * Real.sqrt T))) S := by
  have h1 : HasDerivAt (fun u : ℝ => u / K) (1 / K) S :=
    (hasDerivAt_id' (x := S)).div_const K
  have h2 : HasDerivAt (fun u : ℝ => Real.log (u / K)) (1 / K / (S / K)) S :=
    h1.log (ne_of_gt (div_pos hS hK))
  have h3 := (h2.add_const ((r + 0.5 * sigma ^ 2) * T)).div_const
    (sigma * Real.sqrt T)
  have hval : 1 / K / (S / K) / (sigma * Real.sqrt T) =
      1 / (S * (sigma * Real.sqrt T)) := by
    have hq : (0:ℝ) < sigma * Real.sqrt T := by positivity
    field_simp
  rw [← hval]
  exact h3

lemma hasDerivAt_d2fn (hK : 0 < K) (hT : 0 < T) (hs : 0 < sigma)
    (hS : 0 < S) :
    HasDerivAt (d2fn K T r sigma) (1 / (S * (sigma * Real.sqrt T))) S :=
  (hasDerivAt_d1fn hK hT hs hS).sub_const _

lemma hasDerivAt_callVal (hK : 0 < K) (hT : 0 < T) (hs : 0 < sigma)
    (hS : 0 < S) :
    HasDerivAt (callVal K T r sigma) (normCdf (d1fn K T r sigma S)) S := by
  have hc1 : HasDerivAt (fun u => normCdf (d1fn K T r sigma u))
      (normPdf (d1fn K T r sigma S) * (1 / (S * (sigma * Real.sqrt T)))) S :=
    (hasDerivAt_normCdf _).comp S (hasDerivAt_d1fn hK hT hs hS)
  have hc2 : HasDerivAt (fun u => normCdf (d2fn K T r sigma u))
      (normPdf (d2fn K T r sigma S) * (1 / (S * (sigma * Real.sqrt T)))) S :=
    (hasDerivAt_normCdf _).comp S (hasDerivAt_d2fn hK hT hs hS)
  have h := ((hasDerivAt_id' (x := S)).mul hc1).sub
    (HasDerivAt.const_mul (K * Real.exp (-r * T)) hc2)
  have hval : 1 * normCdf (d1fn K T r sigma S) +
      S * (normPdf (d1fn K T r sigma S) * (1 / (S * (sigma * Real.sqrt T)))) -
      K * Real.exp (-r * T) *
        (normPdf (d2fn K T r sigma S) * (1 / (S * (sigma * Real.sqrt T)))) =
      normCdf (d1fn K T r sigma S) := by
    have hkey := key_identity (r := r) hS hK hT hs
    have hq : (0:ℝ) < sigma * Real.sqrt T := by positivity
    field_simp
    simp only [← neg_mul]
    linear_combination hkey
  rw [← hval]
  exact h

lemma callVal_monotoneOn (hK : 0 < K) (hT : 0 < T) (hs : 0 < sigma) :
    MonotoneOn (callVal K T r sigma) (Ioi 0) := by
  refine @monotoneOn_of_hasDerivWithinAt_nonneg (Ioi 0) (convex_Ioi 0)
    (callVal K T r sigma) (fun u => normCdf (d1fn K T r sigma u)) ?_ ?_ ?_
  · intro u hu
    exact (hasDerivAt_callVal hK hT hs hu).continuousAt.continuousWithinAt
  · intro u hu
    rw [interior_Ioi] at hu
    exact (hasDerivAt_callVal hK hT hs hu).hasDerivWithinAt
  · intro u _
    exact normCdf_nonneg _

lemma sub_callVal_monotoneOn (hK : 0 < K) (hT : 0 < T) (hs : 0 < sigma) :
    MonotoneOn (fun u => u - callVal K T r sigma u) (Ioi 0) := by
  refine @monotoneOn_of_hasDerivWithinAt_nonneg (Ioi 0) (convex_Ioi 0)
    (fun u => u - callVal K T r sigma u)
    (fun u => 1 - normCdf (d1fn K T r sigma u)) ?_ ?_ ?_
  · intro u hu
    exact ((hasDerivAt_id' (x := u)).sub
      (hasDerivAt_callVal hK hT hs hu)).continuousAt.continuousWithinAt
  · intro u hu
    rw [interior_Ioi] at hu
    exact ((hasDerivAt_id' (x := u)).sub
      (hasDerivAt_callVal hK hT hs hu)).hasDerivWithinAt
  · intro u _
    show 0 ≤ 1 - normCdf (d1fn K T r sigma u)
    have := normCdf_le_one (d1fn K T r sigma u)
    linarith

lemma putVal_eq (S : ℝ) : putVal K T r sigma S =
    callVal K T r sigma S - S + K * Real.exp (-r * T) := by
  rw [putVal, callVal, normCdf_neg, normCdf_neg]
  ring

lemma callVal_nonneg (hS : 0 < S) (hK : 0 < K) (hT : 0 < T) (hs : 0 < sigma) :
    0 ≤ callVal K T r sigma S := by
  have hle : d2fn K T r sigma S ≤ d1fn K T r sigma S := by
    rw [d2fn]
    nlinarith [Real.sqrt_nonneg T, hs.le]
  have hm := mills_ineq hle
  have hkey := key_identity (r := r) hS hK hT hs
  have hKE : (0:ℝ) < K * Real.exp (-r * T) := by positivity
  have hphi1 := normPdf_pos (d1fn K T r sigma S)
  rw [callVal]
  have h1 : K * Real.exp (-r * T) * normCdf (d2fn K T r sigma S) *
      normPdf (d1fn K T r sigma S) ≤
      S * normCdf (d1fn K T r sigma S) * normPdf (d1fn K T r sigma S) := by
    calc K * Real.exp (-r * T) * normCdf (d2fn K T r sigma S) *
        normPdf (d1fn K T r sigma S)
        = K * Real.exp (-r * T) *
          (normCdf (d2fn K T r sigma S) * normPdf (d1fn K T r sigma S)) := by
          ring
      _ ≤ K * Real.exp (-r * T) *
          (normCdf (d1fn K T r sigma S) * normPdf (d2fn K T r sigma S)) :=
          mul_le_mul_of_nonneg_left hm hKE.le
      _ = normCdf (d1fn K T r sigma S) *
          (K * Real.exp (-r * T) * normPdf (d2fn K T r sigma S)) := by ring
      _ = normCdf (d1fn K T r sigma S) * (S * normPdf (d1fn K T r sigma S)) := by
          rw [← hkey]
      _ = S * normCdf (d1fn K T r sigma S) * normPdf (d1fn K T r sigma S) := by
          ring
  have h2 : K * Real.exp (-r * T) * normCdf (d2fn K T r sigma S) ≤
      S * normCdf (d1fn K T r sigma S) :=
    le_of_mul_le_mul_right h1 hphi1
  linarith

lemma putVal_nonneg (hS : 0 < S) (hK : 0 < K) (hT : 0 < T) (hs : 0 < sigma) :
    0 ≤ putVal K T r sigma S := by
  have hle : -d1fn K T r sigma S ≤ -d2fn K T r sigma S := by
    rw [d2fn]
    nlinarith [Real.sqrt_nonneg T, hs.le]
  have hm := mills_ineq hle
  rw [normPdf_neg_arg, normPdf_neg_arg] at hm
  have hkey := key_identity (r := r) hS hK hT hs
  have hphi2 := normPdf_pos (d2fn K T r sigma S)
  rw [putVal]
  have h1 : S * normCdf (-d1fn K T r sigma S) * normPdf (d2fn K T r sigma S) ≤
      K * Real.exp (-r * T) * normCdf (-d2fn K T r sigma S) *
        normPdf (d2fn K T r sigma S) := by
    calc S * normCdf (-d1fn K T r sigma S) * normPdf (d2fn K T r sigma S)
        = S * (normCdf (-d1fn K T r sigma S) * normPdf (d2fn K T r sigma S)) := by
          ring
      _ ≤ S * (normCdf (-d2fn K T r sigma S) * normPdf (d1fn K T r sigma S)) :=
          mul_le_mul_of_nonneg_left hm hS.le
      _ = normCdf (-d2fn K T r sigma S) * (S * normPdf (d1fn K T r sigma S)) := by
          ring
      _ = normCdf (-d2fn K T r sigma S) *
          (K * Real.exp (-r * T) * normPdf (d2fn K T r sigma S)) := by
          rw [hkey]
      _ = K * Real.exp (-r * T) * normCdf (-d2fn K T r sigma S) *
          normPdf (d2fn K T r sigma S) := by ring
  have h2 : S * normCdf (-d1fn K T r sigma S) ≤
      K * Real.exp (-r * T) * normCdf (-d2fn K T r sigma S) :=
    le_of_mul_le_mul_right h1 hphi2
  linarith

/-! ### Claims that follow from the branch structure alone -/

/-- C9: whenever `T ≤ 0`, `black_scholes_price` returns before the
option-type check is reached: it returns `max 0 (S-K)` when `option_type`
is `"call"` and `max 0 (K-S)` for any other `option_type`, including
invalid strings such as `"straddle"`, and never signals an error. -/
theorem C9_expiry_early_return (S K T r sigma : ℝ) (t : String) (hT : T ≤ 0) :
    black_scholes_price S K T r sigma t =
      Except.ok (if t = "call" then max 0 (S - K) else max 0 (K - S)) := by
  rw [black_scholes_price, if_pos hT]
  by_cases h : t = "call"
  · rw [if_pos h, if_pos h]
  · rw [if_neg h, if_neg h]

theorem C9_witness :
    black_scholes_price 1 2 0 0 0 "straddle" =
      Except.ok (if "straddle" = "call" then max 0 ((1:ℝ) - 2) else max 0 (2 - 1)) :=
  C9_expiry_early_return 1 2 0 0 0 "straddle" le_rfl

/-- C4 counterexample: at `T = 0` the price function returns the numeric
value `max 0 (K - S) = 2` for the invalid option type `"straddle"` instead
of failing, because the expiry branch precedes the type check. -/
theorem C4_counterexample :
    black_scholes_price 1 3 0 0 0 "straddle" = Except.ok 2 := by
  rw [black_scholes_price, if_pos (le_refl (0:ℝ)),
    if_neg (by decide : ¬("straddle" = "call"))]
  norm_num

/-- C4 (amended): for `T > 0` the price fails with the invalid-argument
error whenever the option type is neither `"call"` nor `"put"`; at `T ≤ 0`
it instead returns the intrinsic put value even for invalid types. -/
theorem C4_amended_invalid_type (S K T r sigma : ℝ) (t : String) (hT : 0 < T)
    (hc : t ≠ "call") (hp : t ≠ "put") :
    black_scholes_price S K T r sigma t =
      Except.error "Invalid option type. Must be 'call' or 'put'." := by
  rw [black_scholes_price, if_neg (not_le.mpr hT)]
  simp only [if_neg hc, if_neg hp]

theorem C4_amended_witness :
    black_scholes_price 1 1 1 0 0 "straddle" =
      Except.error "Invalid option type. Must be 'call' or 'put'." :=
  C4_amended_invalid_type 1 1 1 0 0 "straddle" one_pos (by decide) (by decide)

/-- C3 counterexample: `delta` does not signal an invalid-option-type error:
on the invalid type `"straddle"` (with valid numeric inputs `S = K = 1`,
`T = 1`, `r = 0`, `sigma = 1`) it falls into the put branch and returns the
numeric value `normCdf (1/2) - 1`. -/
theorem C3_counterexample :
    delta 1 1 1 0 1 "straddle" = Except.ok (normCdf (1 / 2) - 1) := by
  rw [delta, if_neg (by norm_num : ¬((1:ℝ) ≤ 0))]
  rw [_calculate_d1_d2, if_neg (by norm_num : ¬((1:ℝ) ≤ 0 ∨ (1:ℝ) ≤ 0))]
  simp only [if_neg (by decide : ¬("straddle" = "call"))]
  norm_num [normCdfX, Real.sqrt_one, Real.log_one]

/-- C3 (amended): only `black_scholes_price` signals the invalid-option-type
error, and only when `T > 0`; `delta`, `theta` and `rho` never signal it —
for a type argument outside `\x7b"call", "put"\x7d` they return the numeric
value of their put branch. -/
theorem C3_amended_only_price_raises (S K T r sigma : ℝ) (t : String)
    (hc : t ≠ "call") (hp : t ≠ "put") :
    (0 < T → black_scholes_price S K T r sigma t =
      Except.error "Invalid option type. Must be 'call' or 'put'.") ∧
    (∃ a, delta S K T r sigma t = Except.ok a) ∧
    (∃ b, theta S K T r sigma t = Except.ok b) ∧
    (∃ c, rho S K T r sigma t = Except.ok c) := by
  refine ⟨fun hT => ?_, ?_, ?_, ?_⟩
  · rw [black_scholes_price, if_neg (not_le.mpr hT)]
    simp only [if_neg hc, if_neg hp]
  · rw [delta]
    by_cases hT : T ≤ 0
    · rw [if_pos hT, if_neg hc]; exact ⟨_, rfl⟩
    · rw [if_neg hT]; simp only [if_neg hc]; exact ⟨_, rfl⟩
  · rw [theta]
    by_cases hT : T ≤ 0
    · rw [if_pos hT]; exact ⟨_, rfl⟩
    · rw [if_neg hT]; simp only [if_neg hc]; exact ⟨_, rfl⟩
  · rw [rho]
    by_cases hT : T ≤ 0
    · rw [if_pos hT]; exact ⟨_, rfl⟩
    · rw [if_neg hT]; simp only [if_neg hc]; exact ⟨_, rfl⟩

theorem C3_amended_witness :
    ((0:ℝ) < 1 → black_scholes_price 1 1 1 0 1 "straddle" =
      Except.error "Invalid option type. Must be 'call' or 'put'.") ∧
    (∃ a, delta 1 1 1 0 1 "straddle" = Except.ok a) ∧
    (∃ b, theta 1 1 1 0 1 "straddle" = Except.ok b) ∧
    (∃ c, rho 1 1 1 0 1 "straddle" = Except.ok c) :=
  C3_amended_only_price_raises 1 1 1 0 1 "straddle" (by decide) (by decide)

/-- C2: at expiry (`T = 0`) the price collapses to the intrinsic value,
`gamma`, `vega`, `theta` and `rho` all return `0`, `delta` of a call is `1`
if `S > K` else `0`, and `delta` of a put is `-1` if `S < K` else `0`. -/
theorem C2_expiry_collapse (S K r sigma : ℝ) (hS : 0 < S) (hK : 0 < K)
    (hs : 0 ≤ sigma) :
    black_scholes_price S K 0 r sigma "call" = Except.ok (max 0 (S - K)) ∧
    black_scholes_price S K 0 r sigma "put" = Except.ok (max 0 (K - S)) ∧
    gamma S K 0 r sigma = 0 ∧
    vega S K 0 r sigma = 0 ∧
    theta S K 0 r sigma "call" = Except.ok 0 ∧
    theta S K 0 r sigma "put" = Except.ok 0 ∧
    rho S K 0 r sigma "call" = Except.ok 0 ∧
    rho S K 0 r sigma "put" = Except.ok 0 ∧
    delta S K 0 r sigma "call" = Except.ok (if K < S then 1 else 0) ∧
    delta S K 0 r sigma "put" = Except.ok (if S < K then -1 else 0) := by
  refine ⟨?_, ?_, ?_, ?_, ?_, ?_, ?_, ?_, ?_, ?_⟩ <;>
    simp [black_scholes_price, gamma, vega, theta, rho, delta]

theorem C2_witness :
    black_scholes_price 2 1 0 0 0 "call" = Except.ok (max 0 ((2:ℝ) - 1)) ∧
    black_scholes_price 2 1 0 0 0 "put" = Except.ok (max 0 ((1:ℝ) - 2)) ∧
    gamma 2 1 0 0 0 = 0 ∧
    vega 2 1 0 0 0 = 0 ∧
    theta 2 1 0 0 0 "call" = Except.ok 0 ∧
    theta 2 1 0 0 0 "put" = Except.ok 0 ∧
    rho 2 1 0 0 0 "call" = Except.ok 0 ∧
    rho 2 1 0 0 0 "put" = Except.ok 0 ∧
    delta 2 1 0 0 0 "call" = Except.ok (if (1:ℝ) < 2 then 1 else 0) ∧
    delta 2 1 0 0 0 "put" = Except.ok (if (2:ℝ) < 1 then -1 else 0) :=
  C2_expiry_collapse 2 1 0 0 (by norm_num) (by norm_num) le_rfl

/-- C10: for `T > 0` and `sigma ≤ 0`, `_calculate_d1_d2` returns
`(+inf, +inf)` when `S > K` and `(-inf, -inf)` when `S ≤ K`, so the price
degenerates to `S - K·exp(-r·T)` (call) and `0` (put) when `S > K`, and to
`0` (call) and `K·exp(-r·T) - S` (put) when `S ≤ K`. -/
theorem C10_degenerate_limits (S K T r sigma : ℝ) (hS : 0 < S) (hK : 0 < K)
    (hT : 0 < T) (hs : sigma ≤ 0) :
    (_calculate_d1_d2 S K T r sigma =
      if K < S then (XReal.pos_inf, XReal.pos_inf)
      else (XReal.neg_inf, XReal.neg_inf)) ∧
    black_scholes_price S K T r sigma "call" =
      Except.ok (if K < S then S - K * Real.exp (-r * T) else 0) ∧
    black_scholes_price S K T r sigma "put" =
      Except.ok (if K < S then 0 else K * Real.exp (-r * T) - S) := by
  have h1 : _calculate_d1_d2 S K T r sigma =
      if K < S then (XReal.pos_inf, XReal.pos_inf)
      else (XReal.neg_inf, XReal.neg_inf) := by
    rw [_calculate_d1_d2, if_pos (Or.inr hs)]
  refine ⟨h1, ?_, ?_⟩ <;>
      rw [black_scholes_price, if_neg (not_le.mpr hT)] <;>
      simp only [h1] <;>
      by_cases hKS : K < S <;>
      simp [hKS, normCdfX, XReal.neg]

theorem C10_witness :
    (_calculate_d1_d2 2 1 1 0 0 =
      if (1:ℝ) < 2 then (XReal.pos_inf, XReal.pos_inf)
      else (XReal.neg_inf, XReal.neg_inf)) ∧
    black_scholes_price 2 1 1 0 0 "call" =
      Except.ok (if (1:ℝ) < 2 then 2 - 1 * Real.exp (-0 * 1) else 0) ∧
    black_scholes_price 2 1 1 0 0 "put" =
      Except.ok (if (1:ℝ) < 2 then 0 else 1 * Real.exp (-0 * 1) - 2) :=
  C10_degenerate_limits 2 1 1 0 0 (by norm_num) (by norm_num) (by norm_num) le_rfl

/-- C6: `gamma` and `vega` are non-negative for every valid input; on the
boundary `T ≤ 0 ∨ sigma ≤ 0` both are exactly `0`, and otherwise they are
the non-negative values `normPdf d1 / (S·sigma·√T)` and
`S·normPdf d1·√T`. -/
theorem C6_gamma_vega_nonneg (S K T r sigma : ℝ) (hS : 0 < S) (hK : 0 < K)
    (hT : 0 ≤ T) (hs : 0 ≤ sigma) :
    ((T ≤ 0 ∨ sigma ≤ 0) →
      gamma S K T r sigma = 0 ∧ vega S K T r sigma = 0) ∧
    0 ≤ gamma S K T r sigma ∧ 0 ≤ vega S K T r sigma := by
  refine ⟨fun h => by rw [gamma, if_pos h, vega, if_pos h]; exact ⟨rfl, rfl⟩, ?_, ?_⟩
  · rw [gamma]
    by_cases h : T ≤ 0 ∨ sigma ≤ 0
    · rw [if_pos h]
    · rw [if_neg h]
      push_neg at h
      have hT' : 0 < T := h.1
      have hs' : 0 < sigma := h.2
      apply div_nonneg (normPdfX_nonneg _)
      positivity
  · rw [vega]
    by_cases h : T ≤ 0 ∨ sigma ≤ 0
    · rw [if_pos h]
    · rw [if_neg h]
      have := normPdfX_nonneg (_calculate_d1_d2 S K T r sigma).1
      positivity

/-- C5: for every valid input, the call delta lies in `[0, 1]` and the put
delta lies in `[-1, 0]`. -/
theorem C5_delta_bounds (S K T r sigma : ℝ) (hS : 0 < S) (hK : 0 < K)
    (hT : 0 ≤ T) (hs : 0 ≤ sigma) :
    (∃ a, delta S K T r sigma "call" = Except.ok a ∧ a ∈ Icc (0:ℝ) 1) ∧
    (∃ b, delta S K T r sigma "put" = Except.ok b ∧ b ∈ Icc (-1:ℝ) 0) := by
  constructor
  · rw [delta]
    by_cases h : T ≤ 0
    · rw [if_pos h]
      simp only [if_pos rfl]
      refine ⟨_, rfl, ?_⟩
      by_cases hKS : K < S <;> simp [hKS]
    · rw [if_neg h]
      simp only [if_pos rfl]
      exact ⟨_, rfl, ⟨normCdfX_nonneg _, normCdfX_le_one _⟩⟩
  · rw [delta]
    by_cases h : T ≤ 0
    · rw [if_pos h]
      simp only [if_neg (by decide : ¬("put" = "call"))]
      refine ⟨_, rfl, ?_⟩
      by_cases hSK : S < K <;> simp [hSK]
    · rw [if_neg h]
      simp only [if_neg (by decide : ¬("put" = "call"))]
      refine ⟨_, rfl, ?_, ?_⟩
      · linarith [normCdfX_nonneg (_calculate_d1_d2 S K T r sigma).1]
      · linarith [normCdfX_le_one (_calculate_d1_d2 S K T r sigma).1]

theorem C5_witness :
    (∃ a, delta 1 1 1 0 1 "call" = Except.ok a ∧ a ∈ Icc (0:ℝ) 1) ∧
    (∃ b, delta 1 1 1 0 1 "put" = Except.ok b ∧ b ∈ Icc (-1:ℝ) 0) :=
  C5_delta_bounds 1 1 1 0 1 (by norm_num) (by norm_num) (by norm_num)
    (by norm_num)

/-- C1: exact put-call parity: for `S, K, T, sigma > 0` and any `r`, the
call and put prices both succeed and their difference is exactly
`S - K·exp(-r·T)` in real arithmetic. -/
theorem C1_put_call_parity (S K T r sigma : ℝ) (hS : 0 < S) (hK : 0 < K)
    (hT : 0 < T) (hs : 0 < sigma) :
    ∃ c p, black_scholes_price S K T r sigma "call" = Except.ok c ∧
      black_scholes_price S K T r sigma "put" = Except.ok p ∧
      c - p = S - K * Real.exp (-r * T) := by
  refine ⟨callVal K T r sigma S, putVal K T r sigma S,
    price_call_eq hT hs, price_put_eq hT hs, ?_⟩
  rw [callVal, putVal, normCdf_neg, normCdf_neg]
  ring

theorem C1_witness :
    ∃ c p, black_scholes_price 1 1 1 0 1 "call" = Except.ok c ∧
      black_scholes_price 1 1 1 0 1 "put" = Except.ok p ∧
      c - p = 1 - 1 * Real.exp (-0 * 1) :=
  C1_put_call_parity 1 1 1 0 1 (by norm_num) (by norm_num) (by norm_num)
    (by norm_num)

theorem C6_witness :
    (((1:ℝ) ≤ 0 ∨ (0:ℝ) ≤ 0) → gamma 1 1 1 0 0 = 0 ∧ vega 1 1 1 0 0 = 0) ∧
    0 ≤ gamma 1 1 1 0 0 ∧ 0 ≤ vega 1 1 1 0 0 :=
  C6_gamma_vega_nonneg 1 1 1 0 0 (by norm_num) (by norm_num) (by norm_num) le_rfl

/-- C7 counterexample: with `K = 1`, `T = 1`, `r = -1`, `sigma = 0` (inputs
allowed by the claim, which only requires `sigma ≥ 0`), the call price drops
from `0` at `S = 1` to the negative value `2 - e` at `S = 2`, so the call
price is not non-decreasing in `S`. -/
theorem C7_counterexample :
    black_scholes_price 1 1 1 (-1) 0 "call" = Except.ok 0 ∧
    black_scholes_price 2 1 1 (-1) 0 "call" = Except.ok (2 - Real.exp 1) ∧
    2 - Real.exp 1 < 0 := by
  have he : (2:ℝ) < Real.exp 1 :=
    lt_trans (by norm_num) Real.exp_one_gt_d9
  have hd1 : _calculate_d1_d2 1 1 1 (-1) 0 = (XReal.neg_inf, XReal.neg_inf) := by
    rw [_calculate_d1_d2, if_pos (Or.inr le_rfl),
      if_neg (by norm_num : ¬((1:ℝ) < 1))]
  have hd2 : _calculate_d1_d2 2 1 1 (-1) 0 = (XReal.pos_inf, XReal.pos_inf) := by
    rw [_calculate_d1_d2, if_pos (Or.inr le_rfl),
      if_pos (by norm_num : (1:ℝ) < 2)]
  refine ⟨?_, ?_, by linarith⟩
  · rw [black_scholes_price, if_neg (by norm_num : ¬((1:ℝ) ≤ 0))]
    simp only [hd1]
    norm_num [normCdfX]
  · rw [black_scholes_price, if_neg (by norm_num : ¬((1:ℝ) ≤ 0))]
    simp only [hd2]
    norm_num [normCdfX]

/-- C7 (amended): the price is monotone in the spot — non-decreasing for the
call and non-increasing for the put — for all valid inputs with `T ≤ 0` or
`sigma > 0`; the degenerate combination `T > 0 ∧ sigma = 0` must be
excluded (there monotonicity can fail, see the counterexample). -/
theorem C7_amended_monotone_in_spot (K T r sigma S1 S2 : ℝ) (hK : 0 < K)
    (hT : 0 ≤ T) (hs : 0 ≤ sigma) (hcase : T ≤ 0 ∨ 0 < sigma)
    (hS1 : 0 < S1) (h12 : S1 ≤ S2) :
    ∃ c1 c2 p1 p2,
      black_scholes_price S1 K T r sigma "call" = Except.ok c1 ∧
      black_scholes_price S2 K T r sigma "call" = Except.ok c2 ∧
      black_scholes_price S1 K T r sigma "put" = Except.ok p1 ∧
      black_scholes_price S2 K T r sigma "put" = Except.ok p2 ∧
      c1 ≤ c2 ∧ p2 ≤ p1 := by
  by_cases hT0 : T ≤ 0
  · refine ⟨max 0 (S1 - K), max 0 (S2 - K), max 0 (K - S1), max 0 (K - S2),
      ?_, ?_, ?_, ?_, ?_, ?_⟩
    · rw [black_scholes_price, if_pos hT0, if_pos rfl]
    · rw [black_scholes_price, if_pos hT0, if_pos rfl]
    · rw [black_scholes_price, if_pos hT0,
        if_neg (by decide : ¬("put" = "call"))]
    · rw [black_scholes_price, if_pos hT0,
        if_neg (by decide : ¬("put" = "call"))]
    · exact max_le_max le_rfl (by linarith)
    · exact max_le_max le_rfl (by linarith)
  · have hT' : 0 < T := not_le.mp hT0
    have hs' : 0 < sigma := hcase.resolve_left hT0
    have hS2 : 0 < S2 := lt_of_lt_of_le hS1 h12
    refine ⟨_, _, _, _, price_call_eq hT' hs', price_call_eq hT' hs',
      price_put_eq hT' hs', price_put_eq hT' hs', ?_, ?_⟩
    · exact callVal_monotoneOn hK hT' hs' (mem_Ioi.mpr hS1)
        (mem_Ioi.mpr hS2) h12
    · rw [putVal_eq, putVal_eq]
      have h := sub_callVal_monotoneOn (r := r) hK hT' hs' (mem_Ioi.mpr hS1)
        (mem_Ioi.mpr hS2) h12
      simp only at h
      linarith

theorem C7_amended_witness :
    ∃ c1 c2 p1 p2,
      black_scholes_price 1 1 1 0 1 "call" = Except.ok c1 ∧
      black_scholes_price 2 1 1 0 1 "call" = Except.ok c2 ∧
      black_scholes_price 1 1 1 0 1 "put" = Except.ok p1 ∧
      black_scholes_price 2 1 1 0 1 "put" = Except.ok p2 ∧
      c1 ≤ c2 ∧ p2 ≤ p1 :=
  C7_amended_monotone_in_spot 1 1 0 1 1 2 (by norm_num) (by norm_num)
    (by norm_num) (Or.inr (by norm_num)) (by norm_num) (by norm_num)

/-- C8 counterexample: with `sigma = 0` (allowed by the claim's precondition
`σ ≥ 0`), `T = 1` and `r = -1`, the call price at `S = 2`, `K = 1` is the
negative number `2 - e`, so the price is not non-negative in exact real
arithmetic on the whole claimed domain. -/
theorem C8_counterexample :
    black_scholes_price 2 1 1 (-1) 0 "call" = Except.ok (2 - Real.exp 1) ∧
    2 - Real.exp 1 < 0 := by
  have he : (2:ℝ) < Real.exp 1 :=
    lt_trans (by norm_num) Real.exp_one_gt_d9
  have hd2 : _calculate_d1_d2 2 1 1 (-1) 0 = (XReal.pos_inf, XReal.pos_inf) := by
    rw [_calculate_d1_d2, if_pos (Or.inr le_rfl),
      if_pos (by norm_num : (1:ℝ) < 2)]
  refine ⟨?_, by linarith⟩
  rw [black_scholes_price, if_neg (by norm_num : ¬((1:ℝ) ≤ 0))]
  simp only [hd2]
  norm_num [normCdfX]

/-- C8 (amended): for `S, K > 0`, `T, sigma ≥ 0` and `type ∈ \x7b"call",
"put"\x7d`, the price is non-negative in exact real arithmetic provided
`T ≤ 0` or `sigma > 0`; the degenerate combination `T > 0 ∧ sigma = 0` must
be excluded (there the price can be negative, see the counterexample). -/
theorem C8_amended_price_nonneg (S K T r sigma : ℝ) (hS : 0 < S) (hK : 0 < K)
    (hT : 0 ≤ T) (hs : 0 ≤ sigma) (hcase : T ≤ 0 ∨ 0 < sigma) (t : String)
    (ht : t = "call" ∨ t = "put") :
    ∃ v, black_scholes_price S K T r sigma t = Except.ok v ∧ 0 ≤ v := by
  by_cases hT0 : T ≤ 0
  · rcases ht with h | h <;> subst h
    · exact ⟨_, by rw [black_scholes_price, if_pos hT0, if_pos rfl],
        le_max_left _ _⟩
    · exact ⟨_, by rw [black_scholes_price, if_pos hT0,
        if_neg (by decide : ¬("put" = "call"))], le_max_left _ _⟩
  · have hT' : 0 < T := not_le.mp hT0
    have hs' : 0 < sigma := hcase.resolve_left hT0
    rcases ht with h | h <;> subst h
    · exact ⟨_, price_call_eq hT' hs', callVal_nonneg hS hK hT' hs'⟩
    · exact ⟨_, price_put_eq hT' hs', putVal_nonneg hS hK hT' hs'⟩

theorem C8_amended_witness :
    ∃ v, black_scholes_price 1 1 1 0 1 "call" = Except.ok v ∧ 0 ≤ v :=
  C8_amended_price_nonneg 1 1 1 0 1 (by norm_num) (by norm_num) (by norm_num)
    (by norm_num) (Or.inr (by norm_num)) "call" (Or.inl rfl)

end BSM
